import Mathlib

/-!
Verification of `tvb/analyzers/node_coherence.py` (cross coherence between
all nodes of a 4-D time series).

The embedding follows the Python source (Python 2 semantics: `/` on ints is
floor division).  Real samples are modelled by `ℝ`, spectra by `ℂ`, and the
frequency axis by `ℚ` (the sign structure of `numpy.fft.fftfreq` is exact).
Division is Lean's total division, so a `0/0` that is NaN in numpy is `0`
here; statements touched by this are noted at the theorem.
-/

namespace NodeCoherence

/-- A numpy-style array as the analyzer receives it: a shape together with a
total multi-index valuation (indices outside the shape are junk values that
the pipeline never uses). -/
structure NDArray where
  shape : List ℕ
  data : List ℕ → ℝ

/-- Errors `coherence` can raise, in the order the source raises them:
unpacking `data.shape` into four names (`shapeMismatch`), the division
`nt / nfft` with `nfft = 0` (`zeroDivision`), and the explicit
`ValueError` reporting the available sample count `nt` and the requested
`nfft` (`insufficientData`). -/
inductive CohError where
  | shapeMismatch : CohError
  | zeroDivision : CohError
  | insufficientData : (nt : ℕ) → (nfft : ℤ) → CohError
  deriving DecidableEq

/-- The pair `coherence` returns: the coherence array, recorded by its shape
`(freq, node_i, node_j, state_variable, mode)` and its entry valuation, plus
the list of retained (strictly positive) frequencies in Hz. -/
structure CohResult where
  shape : List ℕ
  entry : ℕ → ℕ → ℕ → ℕ → ℕ → ℂ
  freqs : List ℚ

/-- `hamming(M, sym)` from the source (itself lifted from scipy.signal):
the M-point Hamming window `0.54 - 0.46*cos(2*pi*n/(M-1))`.  The source
computes `odd = M % 2` and, when `sym` is false and `M` is even, replaces
`M` by `M + 1` before building the window and drops the final sample
afterwards; the two branches below inline that flow. -/
noncomputable def hamming (M : ℤ) (sym : Bool) : List ℝ :=
  if M < 1 then []
  else if M = 1 then [1]
  else if sym = false ∧ M % 2 = 0 then
    ((List.range (M + 1).toNat).map fun n : ℕ =>
      0.54 - 0.46 * Real.cos (2 * Real.pi * (n : ℝ) / (((M + 1 : ℤ) : ℝ) - 1))).dropLast
  else
    (List.range M.toNat).map fun n : ℕ =>
      0.54 - 0.46 * Real.cos (2 * Real.pi * (n : ℝ) / ((M : ℝ) - 1))

/-- Sample `t` of the taper `wins *= hamming(nfft)` applies along the last
axis of each segment. -/
noncomputable def hamVal (nfft t : ℕ) : ℝ :=
  (hamming nfft true).getD t 0

/-- The DFT kernel `exp(-2*pi*i*t*k/nfft)` of `numpy.fft.fft`. -/
noncomputable def fftKernel (nfft t k : ℕ) : ℂ :=
  Complex.exp (-2 * (Real.pi : ℂ) * Complex.I * ((t * k : ℕ) : ℂ) / (nfft : ℂ))

/-- `F = numpy.fft.fft(wins)`: bin `k` of the windowed FFT of segment `w`
of node `i`, state variable `s`, mode `m`.  The segment layout mirrors
`data[:nwin*nfft].transpose((2,1,3,0)).reshape((nn,ns,nm,nwin,nfft))`:
sample `t` of segment `w` is `data[w*nfft + t, s, i, m]`. -/
noncomputable def segSpec (data : List ℕ → ℝ) (nfft i s m w k : ℕ) : ℂ :=
  ∑ t ∈ Finset.range nfft,
    ((hamVal nfft t * data [w * nfft + t, s, i, m] : ℝ) : ℂ) * fftKernel nfft t k

/-- `G = F[:, numpy.newaxis] * F.conj()`, followed by `G = G.imag` when
`imag` is set (the imaginary part is a real array; we keep it embedded in
`ℂ`, which is where the subsequent arithmetic happens). -/
noncomputable def crossSpec (data : List ℕ → ℝ) (nfft : ℕ) (imag : Bool)
    (i j s m w k : ℕ) : ℂ :=
  let g := segSpec data nfft i s m w k * (starRingEnd ℂ) (segSpec data nfft j s m w k)
  if imag then ((g.im : ℝ) : ℂ) else g

/-- `C = (numpy.abs(G)**2 / (dG[:, numpy.newaxis] * dG)).mean(axis=-2)`:
the per-segment normalized cross-power, averaged over the `nwin` segments.
The normalization happens inside the mean, segment by segment, exactly as in
the source. -/
noncomputable def cohMean (data : List ℕ → ℝ) (nfft nwin : ℕ) (imag : Bool)
    (i j s m k : ℕ) : ℂ :=
  (∑ w ∈ Finset.range nwin,
      (((Complex.abs (crossSpec data nfft imag i j s m w k)) ^ 2 : ℝ) : ℂ) /
        (crossSpec data nfft imag i i s m w k * crossSpec data nfft imag j j s m w k)) /
    (nwin : ℂ)

/-- `numpy.fft.fftfreq(n, d)`: bin `k` holds `k/(d*n)` for `k < (n+1)/2` and
`(k-n)/(d*n)` for the aliased upper half. -/
def fftfreq (n : ℕ) (d : ℚ) (k : ℕ) : ℚ :=
  (if k < (n + 1) / 2 then (k : ℤ) else (k : ℤ) - (n : ℤ)) / (d * n)

/-- The bins the mask `fs > 0.0` retains, in order.  The source's `d` is
`1e3 / sample_rate` (the time series is in milliseconds). -/
def posBins (nfft : ℕ) (sampleRate : ℚ) : List ℕ :=
  (List.range nfft).filter fun k => decide (0 < fftfreq nfft (1000 / sampleRate) k)

/-- `fs[mask]`: the retained frequencies, in Hz. -/
def cohFreqs (nfft : ℕ) (sampleRate : ℚ) : List ℚ :=
  (posBins nfft sampleRate).map (fftfreq nfft (1000 / sampleRate))

/-- Entry `(f, i, j, s, m)` of `numpy.transpose(C[..., mask], (4,0,1,2,3))`:
the coherence at the `f`-th retained frequency bin. -/
noncomputable def cohOut (data : List ℕ → ℝ) (nfft nwin : ℕ) (imag : Bool)
    (sampleRate : ℚ) (f i j s m : ℕ) : ℂ :=
  cohMean data nfft nwin imag i j s m ((posBins nfft sampleRate).getD f 0)

/-- The value `coherence` returns on success, given the unpacked shape
`(nt, ns, nn, nm)`: the transposed masked coherence array and the retained
frequencies. -/
noncomputable def okResult (data : List ℕ → ℝ) (nt ns nn nm : ℕ)
    (sampleRate : ℚ) (nfft : ℤ) (imag : Bool) : CohResult :=
  { shape := [(posBins nfft.toNat sampleRate).length, nn, nn, ns, nm]
    entry := cohOut data nfft.toNat (Int.fdiv nt nfft).toNat imag sampleRate
    freqs := cohFreqs nfft.toNat sampleRate }

/-- `coherence(data, sample_rate, nfft, imag)`, the vectorized estimator.
Steps in source order: unpack `nt, ns, nn, nm = data.shape` (fails unless
the array has exactly four axes), `nwin = nt / nfft` (Python 2 floor
division; raises on `nfft = 0`), the `nwin < 1` guard raising the
insufficient-data `ValueError`, then windowing, FFT, cross-power,
normalization, mean over segments, and the positive-frequency mask. -/
noncomputable def coherence (a : NDArray) (sampleRate : ℚ) (nfft : ℤ)
    (imag : Bool) : Except CohError CohResult :=
  match a with
  | ⟨[nt, ns, nn, nm], data⟩ =>
    if nfft = 0 then .error .zeroDivision
    else if Int.fdiv nt nfft < 1 then .error (.insufficientData nt nfft)
    else .ok (okResult data nt ns nn nm sampleRate nfft imag)
  | _ => .error .shapeMismatch

/-- `result_shape(input_shape)` of the `NodeCoherence` adapter: the
bookkeeping shapes `[(nfft/2 + 1, nn, nn, ns, nm), (nfft/2 + 1,)]` derived
from `self.nfft` and the input shape (Python 2 `nfft/2` is floor division). -/
def result_shape (nfft : ℕ) (input_shape : List ℕ) : List (List ℕ) :=
  let freq_len := nfft / 2 + 1
  [[freq_len, input_shape.getD 2 0, input_shape.getD 2 0,
    input_shape.getD 1 0, input_shape.getD 3 0],
   [freq_len]]

/-- `result_size(input_shape)`: `numpy.sum(map(numpy.prod, result_shape)) * 8`
bytes. -/
def result_size (nfft : ℕ) (input_shape : List ℕ) : ℕ :=
  (((result_shape nfft input_shape).map fun s => s.prod).sum) * 8

/-! ### Basic facts about the embedded definitions -/

/-- Python 2 floor division by a negative divisor of a non-negative
dividend is below 1. -/
theorem fdiv_neg_lt_one (nt : ℕ) (nfft : ℤ) (h : nfft < 0) : Int.fdiv nt nfft < 1 := by
  cases nfft with
  | ofNat k => exact absurd h (by simp [Int.ofNat_eq_coe])
  | negSucc m =>
    cases nt with
    | zero => simp [Int.fdiv]
    | succ n =>
      show Int.fdiv (Int.ofNat (n + 1)) (Int.negSucc m) < 1
      rw [Int.fdiv]
      have h0 : (0 : ℤ) ≤ ((n / m.succ : ℕ) : ℤ) := Int.ofNat_nonneg _
      rw [Int.negSucc_eq]
      omega

theorem filter_range_interval (n m : ℕ) (hm : m ≤ n) (hm0 : 1 ≤ m) :
    ((List.range n).filter fun k => decide (1 ≤ k ∧ k < m)) = List.range' 1 (m - 1) := by
  have e1 := List.range'_append 0 1 (m - 1) 1
  have e2 := List.range'_append 0 m (n - m) 1
  rw [show 0 + 1 * 1 = 1 by omega, show m - 1 + 1 = m by omega] at e1
  rw [show 0 + 1 * m = m by omega, show n - m + m = n by omega] at e2
  have hsplit : List.range n
      = List.range' 0 1 ++ List.range' 1 (m - 1) ++ List.range' m (n - m) := by
    rw [List.range_eq_range', ← e2, ← e1]
  rw [hsplit, List.filter_append, List.filter_append]
  have h1 : (List.range' 0 1).filter (fun k => decide (1 ≤ k ∧ k < m)) = [] := by
    simp
  have h2 : (List.range' 1 (m - 1)).filter (fun k => decide (1 ≤ k ∧ k < m))
      = List.range' 1 (m - 1) := by
    rw [List.filter_eq_self]
    intro a ha
    rw [List.mem_range'_1] at ha
    simp only [decide_eq_true_eq]
    omega
  have h3 : (List.range' m (n - m)).filter (fun k => decide (1 ≤ k ∧ k < m)) = [] := by
    rw [List.filter_eq_nil_iff]
    intro a ha
    rw [List.mem_range'_1] at ha
    simp only [decide_eq_true_eq]
    omega
  rw [h1, h2, h3, List.nil_append, List.append_nil]

/-- A bin of `fftfreq(nfft, 1e3/sample_rate)` is strictly positive exactly
when its index lies in `[1, (nfft+1)/2)`. -/
theorem fftfreq_pos_iff (nfft : ℕ) (sr : ℚ) (hsr : 0 < sr) (hn : 1 ≤ nfft) (k : ℕ)
    (hk : k < nfft) :
    0 < fftfreq nfft (1000 / sr) k ↔ 1 ≤ k ∧ k < (nfft + 1) / 2 := by
  unfold fftfreq
  have hd : 0 < (1000 / sr) * (nfft : ℚ) := by positivity
  rw [div_pos_iff_of_pos_right hd, Int.cast_pos]
  split <;> omega

/-- The mask `fs > 0.0` retains exactly the bins `1, …, (nfft+1)/2 - 1`. -/
theorem posBins_eq (nfft : ℕ) (sr : ℚ) (hsr : 0 < sr) :
    posBins nfft sr = List.range' 1 ((nfft + 1) / 2 - 1) := by
  rcases Nat.eq_zero_or_pos nfft with h0 | h1
  · subst h0
    simp [posBins]
  · unfold posBins
    rw [List.filter_congr (fun k hk => ?_), filter_range_interval nfft ((nfft + 1) / 2)
      (by omega) (by omega)]
    rw [List.mem_range] at hk
    rw [decide_eq_decide]
    exact fftfreq_pos_iff nfft sr hsr h1 k hk

/-- Number of strictly positive FFT bins: `(nfft - 1) / 2`. -/
theorem posBins_length (nfft : ℕ) (sr : ℚ) (hsr : 0 < sr) :
    (posBins nfft sr).length = (nfft - 1) / 2 := by
  rw [posBins_eq nfft sr hsr, List.length_range']
  omega

/-- `|F_i * conj F_j|^2 / (F_i conj F_i * F_j conj F_j)` is the embedding of
a real quotient `N / N` with `N = |F_i|^2 |F_j|^2`: the numerator factors
exactly (the Cauchy–Schwarz inequality is an equality segmentwise). -/
theorem quot_self_form (z w : ℂ) :
    (((Complex.abs (z * (starRingEnd ℂ) w)) ^ 2 : ℝ) : ℂ)
        / ((z * (starRingEnd ℂ) z) * (w * (starRingEnd ℂ) w))
      = (((Complex.normSq z * Complex.normSq w)
          / (Complex.normSq z * Complex.normSq w) : ℝ) : ℂ) := by
  rw [Complex.mul_conj, Complex.mul_conj, Complex.sq_abs, map_mul, Complex.normSq_conj]
  rw [Complex.ofReal_div, Complex.ofReal_mul]

theorem quot_one (z w : ℂ) (hz : z ≠ 0) (hw : w ≠ 0) :
    (((Complex.abs (z * (starRingEnd ℂ) w)) ^ 2 : ℝ) : ℂ)
        / ((z * (starRingEnd ℂ) z) * (w * (starRingEnd ℂ) w)) = 1 := by
  rw [quot_self_form]
  have hz' : Complex.normSq z ≠ 0 := (Complex.normSq_pos.mpr hz).ne'
  have hw' : Complex.normSq w ≠ 0 := (Complex.normSq_pos.mpr hw).ne'
  rw [div_self (mul_ne_zero hz' hw')]
  norm_num

/-- The cross-spectrum magnitude is symmetric in the node pair, for both
values of the `imag` flag. -/
theorem abs_crossSpec_symm (data : List ℕ → ℝ) (nfft : ℕ) (imag : Bool)
    (i j s m w k : ℕ) :
    Complex.abs (crossSpec data nfft imag i j s m w k)
      = Complex.abs (crossSpec data nfft imag j i s m w k) := by
  unfold crossSpec
  have hconj : segSpec data nfft j s m w k * (starRingEnd ℂ) (segSpec data nfft i s m w k)
      = (starRingEnd ℂ) (segSpec data nfft i s m w k
          * (starRingEnd ℂ) (segSpec data nfft j s m w k)) := by
    rw [map_mul, RingHomInvPair.comp_apply_eq₂]
    ring
  cases imag with
  | false =>
    simp only [Bool.false_eq_true, if_false, ite_false]
    rw [hconj, Complex.abs_conj]
  | true =>
    simp only [if_true, ite_true]
    rw [hconj, Complex.conj_im, Complex.abs_ofReal, Complex.abs_ofReal, abs_neg]

/-- The averaged coherence is symmetric in the node pair (numerators agree
by `abs_crossSpec_symm`; the denominators commute). -/
theorem cohMean_symm (data : List ℕ → ℝ) (nfft nwin : ℕ) (imag : Bool)
    (i j s m k : ℕ) :
    cohMean data nfft nwin imag i j s m k = cohMean data nfft nwin imag j i s m k := by
  unfold cohMean
  congr 1
  refine Finset.sum_congr rfl fun w _ => ?_
  rw [abs_crossSpec_symm data nfft imag i j s m w k]
  rw [mul_comm (crossSpec data nfft imag i i s m w k) (crossSpec data nfft imag j j s m w k)]

/-- With `imag = false`, `cohMean` is the embedding of the real segment-mean
of the quotients `N_w / N_w`, `N_w = |F_i|^2 |F_j|^2`. -/
theorem cohMean_false_ofReal (data : List ℕ → ℝ) (nfft nwin : ℕ) (i j s m k : ℕ) :
    cohMean data nfft nwin false i j s m k
      = ((((∑ w ∈ Finset.range nwin,
          (Complex.normSq (segSpec data nfft i s m w k)
              * Complex.normSq (segSpec data nfft j s m w k))
            / (Complex.normSq (segSpec data nfft i s m w k)
              * Complex.normSq (segSpec data nfft j s m w k)))
          / nwin : ℝ) : ℂ)) := by
  unfold cohMean crossSpec
  simp only [if_neg (by simp : ¬ (false = true))]
  rw [Finset.sum_congr rfl fun w _ => quot_self_form _ _]
  rw [← Complex.ofReal_sum]
  rw [show ((nwin : ℕ) : ℂ) = ((nwin : ℝ) : ℂ) by norm_cast]
  rw [← Complex.ofReal_div]

/-- When every segment spectrum of nodes `i` and `j` at bin `k` is nonzero,
the per-segment normalization cancels exactly and the mean is 1. -/
theorem cohMean_one (data : List ℕ → ℝ) (nfft nwin : ℕ) (i j s m k : ℕ)
    (hn : 0 < nwin)
    (hi : ∀ w, w < nwin → segSpec data nfft i s m w k ≠ 0)
    (hj : ∀ w, w < nwin → segSpec data nfft j s m w k ≠ 0) :
    cohMean data nfft nwin false i j s m k = 1 := by
  unfold cohMean crossSpec
  simp only [if_neg (by simp : ¬ (false = true))]
  rw [Finset.sum_congr rfl fun w hw =>
    quot_one _ _ (hi w (Finset.mem_range.mp hw)) (hj w (Finset.mem_range.mp hw))]
  rw [Finset.sum_const, Finset.card_range, nsmul_eq_mul, mul_one]
  exact div_self (by exact_mod_cast hn.ne')

/-- With `imag = false` every averaged coherence value is a real number in
`[0, 1]` (each summand is `N_w / N_w`, which is `0` or `1`). -/
theorem cohMean_false_bounds (data : List ℕ → ℝ) (nfft nwin : ℕ) (i j s m k : ℕ) :
    (cohMean data nfft nwin false i j s m k).im = 0 ∧
    0 ≤ (cohMean data nfft nwin false i j s m k).re ∧
    (cohMean data nfft nwin false i j s m k).re ≤ 1 := by
  rw [cohMean_false_ofReal]
  refine ⟨Complex.ofReal_im _, ?_, ?_⟩
  · rw [Complex.ofReal_re]
    have h1 : ∀ w ∈ Finset.range nwin, (0:ℝ) ≤
        (Complex.normSq (segSpec data nfft i s m w k)
            * Complex.normSq (segSpec data nfft j s m w k))
          / (Complex.normSq (segSpec data nfft i s m w k)
            * Complex.normSq (segSpec data nfft j s m w k)) :=
      fun w _ => div_nonneg
        (mul_nonneg (Complex.normSq_nonneg _) (Complex.normSq_nonneg _))
        (mul_nonneg (Complex.normSq_nonneg _) (Complex.normSq_nonneg _))
    exact div_nonneg (Finset.sum_nonneg h1) (by positivity)
  · rw [Complex.ofReal_re]
    rcases Nat.eq_zero_or_pos nwin with h0 | h0
    · subst h0; simp
    · rw [div_le_one (by exact_mod_cast h0)]
      calc (∑ w ∈ Finset.range nwin,
            (Complex.normSq (segSpec data nfft i s m w k)
                * Complex.normSq (segSpec data nfft j s m w k))
              / (Complex.normSq (segSpec data nfft i s m w k)
                * Complex.normSq (segSpec data nfft j s m w k)))
          ≤ ∑ w ∈ Finset.range nwin, (1:ℝ) :=
            Finset.sum_le_sum fun w _ => div_self_le_one _
        _ = nwin := by simp

/-- An input whose shape does not unpack into exactly four axes fails with
the shape error, whatever the data holds. -/
theorem coherence_shape_error (a : NDArray) (sr : ℚ) (nfft : ℤ) (imag : Bool)
    (h : a.shape.length ≠ 4) :
    coherence a sr nfft imag = .error .shapeMismatch := by
  obtain ⟨sh, d⟩ := a
  rcases sh with _ | ⟨a0, _ | ⟨a1, _ | ⟨a2, _ | ⟨a3, _ | ⟨a4, tl⟩⟩⟩⟩⟩
  · simp [coherence]
  · simp [coherence]
  · simp [coherence]
  · simp [coherence]
  · simp at h
  · simp [coherence]

theorem coherence_zero_nfft (d : List ℕ → ℝ) (nt ns nn nm : ℕ) (sr : ℚ) (imag : Bool) :
    coherence ⟨[nt, ns, nn, nm], d⟩ sr 0 imag = .error .zeroDivision := by
  simp [coherence]

/-- For a positive `nfft`, the `nwin < 1` guard triggers exactly on inputs
with fewer than `nfft` samples. -/
theorem fdiv_lt_one_iff (nt : ℕ) (nfft : ℤ) (h : 0 < nfft) :
    Int.fdiv nt nfft < 1 ↔ (nt : ℤ) < nfft := by
  rw [Int.fdiv_eq_ediv _ h.le]
  constructor
  · intro hlt
    by_contra hge
    push_neg at hge
    have := (Int.le_ediv_iff_mul_le h).mpr (by omega : 1 * nfft ≤ (nt : ℤ))
    omega
  · intro hlt
    have : ¬ (1 ≤ (nt : ℤ) / nfft) := by
      rw [Int.le_ediv_iff_mul_le h]
      omega
    omega

theorem coherence_insufficient (d : List ℕ → ℝ) (nt ns nn nm : ℕ) (sr : ℚ)
    (nfft : ℤ) (imag : Bool) (hpos : 0 < nfft) (hlt : (nt : ℤ) < nfft) :
    coherence ⟨[nt, ns, nn, nm], d⟩ sr nfft imag
      = .error (.insufficientData nt nfft) := by
  simp only [coherence]
  rw [if_neg hpos.ne', if_pos ((fdiv_lt_one_iff nt nfft hpos).mpr hlt)]

theorem coherence_ok (d : List ℕ → ℝ) (nt ns nn nm : ℕ) (sr : ℚ)
    (nfft : ℤ) (imag : Bool) (hpos : 0 < nfft) (hle : nfft ≤ (nt : ℤ)) :
    coherence ⟨[nt, ns, nn, nm], d⟩ sr nfft imag
      = .ok (okResult d nt ns nn nm sr nfft imag) := by
  simp only [coherence]
  rw [if_neg hpos.ne']
  rw [if_neg (by rw [fdiv_lt_one_iff nt nfft hpos]; omega)]

/-- Inversion: a successful run on a four-axis input is the `okResult` of
its unpacked shape. -/
theorem coherence_ok_inv (d : List ℕ → ℝ) (nt ns nn nm : ℕ) (sr : ℚ)
    (nfft : ℤ) (imag : Bool) (r : CohResult)
    (h : coherence ⟨[nt, ns, nn, nm], d⟩ sr nfft imag = .ok r) :
    r = okResult d nt ns nn nm sr nfft imag ∧ 0 < nfft ∧ nfft ≤ (nt : ℤ) := by
  simp only [coherence] at h
  by_cases h0 : nfft = 0
  · rw [if_pos h0] at h
    exact absurd h (by simp)
  · rw [if_neg h0] at h
    by_cases h1 : Int.fdiv nt nfft < 1
    · rw [if_pos h1] at h
      exact absurd h (by simp)
    · rw [if_neg h1] at h
      have hr : r = okResult d nt ns nn nm sr nfft imag := by
        cases h
        rfl
      rcases Int.lt_or_lt_of_ne h0 with hneg | hpos
      · exact absurd (fdiv_neg_lt_one nt nfft hneg) h1
      · refine ⟨hr, hpos, ?_⟩
        rw [fdiv_lt_one_iff nt nfft hpos] at h1
        omega

/-! ### The Hamming window: branch laws and concrete values -/

theorem hamming_lt_one (M : ℤ) (sym : Bool) (h : M < 1) : hamming M sym = [] := by
  simp [hamming, h]

theorem hamming_one (sym : Bool) : hamming 1 sym = [1] := by
  simp [hamming]

theorem hamming_sym (M : ℤ) (h : 2 ≤ M) :
    hamming M true = (List.range M.toNat).map (fun n : ℕ =>
      0.54 - 0.46 * Real.cos (2 * Real.pi * (n : ℝ) / ((M : ℝ) - 1))) := by
  rw [hamming, if_neg (by omega), if_neg (by omega), if_neg (by simp)]

theorem hamming_periodic (M : ℤ) (h : 2 ≤ M) (hev : M % 2 = 0) :
    hamming M false = (hamming (M + 1) true).dropLast := by
  rw [hamming_sym (M + 1) (by omega)]
  rw [hamming, if_neg (by omega), if_neg (by omega), if_pos ⟨rfl, hev⟩]

theorem hamming_four : hamming 4 true = [0.08, 0.77, 0.77, 0.08] := by
  rw [hamming_sym 4 (by norm_num)]
  have hr : (List.range (4:ℤ).toNat) = [0, 1, 2, 3] := rfl
  rw [hr]
  simp only [List.map_cons, List.map_nil]
  have c1 : Real.cos (2 * Real.pi * ((1:ℕ) : ℝ) / (((4:ℤ):ℝ) - 1)) = -(1/2) := by
    rw [show (2 * Real.pi * ((1:ℕ) : ℝ) / (((4:ℤ):ℝ) - 1) : ℝ) = Real.pi - Real.pi / 3 by
      push_cast; ring]
    rw [Real.cos_pi_sub, Real.cos_pi_div_three]
  have c2 : Real.cos (2 * Real.pi * ((2:ℕ) : ℝ) / (((4:ℤ):ℝ) - 1)) = -(1/2) := by
    rw [show (2 * Real.pi * ((2:ℕ) : ℝ) / (((4:ℤ):ℝ) - 1) : ℝ) = Real.pi + Real.pi / 3 by
      push_cast; ring]
    rw [Real.cos_add, Real.cos_pi, Real.sin_pi, Real.cos_pi_div_three]
    ring
  have c3 : Real.cos (2 * Real.pi * ((3:ℕ) : ℝ) / (((4:ℤ):ℝ) - 1)) = 1 := by
    rw [show (2 * Real.pi * ((3:ℕ) : ℝ) / (((4:ℤ):ℝ) - 1) : ℝ) = 2 * Real.pi by
      push_cast; ring]
    exact Real.cos_two_pi
  rw [c1, c2, c3]
  norm_num

theorem hamVal_4 (t : ℕ) :
    hamVal 4 t = [0.08, 0.77, 0.77, 0.08].getD t 0 := by
  unfold hamVal
  rw [show ((4:ℕ):ℤ) = 4 from rfl, hamming_four]

/-! ### The DFT kernel at `nfft = 4`, bin 1 -/

theorem fftKernel_ofReal (nfft t k : ℕ) :
    fftKernel nfft t k
      = Complex.cos (((-2 * Real.pi * (t * k) / nfft : ℝ) : ℂ))
        + Complex.sin (((-2 * Real.pi * (t * k) / nfft : ℝ) : ℂ)) * Complex.I := by
  unfold fftKernel
  rw [show -2 * (Real.pi : ℂ) * Complex.I * ((t * k : ℕ) : ℂ) / (nfft : ℂ)
      = (((-2 * Real.pi * (t * k) / nfft : ℝ) : ℂ)) * Complex.I by push_cast; ring]
  rw [Complex.exp_mul_I]

theorem fftKernel_t_zero (nfft k : ℕ) : fftKernel nfft 0 k = 1 := by
  simp [fftKernel]

theorem fftKernel_4_1 : fftKernel 4 1 1 = -Complex.I := by
  rw [fftKernel_ofReal 4 1 1]
  rw [show (-2 * Real.pi * (((1:ℕ):ℝ) * ((1:ℕ):ℝ)) / ((4:ℕ):ℝ) : ℝ) = -(Real.pi / 2) by
    push_cast; ring]
  rw [← Complex.ofReal_cos, ← Complex.ofReal_sin]
  rw [Real.cos_neg, Real.sin_neg, Real.cos_pi_div_two, Real.sin_pi_div_two]
  simp

theorem fftKernel_4_2 : fftKernel 4 2 1 = -1 := by
  rw [fftKernel_ofReal 4 2 1]
  rw [show (-2 * Real.pi * (((2:ℕ):ℝ) * ((1:ℕ):ℝ)) / ((4:ℕ):ℝ) : ℝ) = -Real.pi by
    push_cast; ring]
  rw [← Complex.ofReal_cos, ← Complex.ofReal_sin]
  rw [Real.cos_neg, Real.sin_neg, Real.cos_pi, Real.sin_pi]
  simp

theorem fftKernel_4_3 : fftKernel 4 3 1 = Complex.I := by
  rw [fftKernel_ofReal 4 3 1]
  rw [show (-2 * Real.pi * (((3:ℕ):ℝ) * ((1:ℕ):ℝ)) / ((4:ℕ):ℝ) : ℝ)
      = -(Real.pi + Real.pi / 2) by push_cast; ring]
  rw [← Complex.ofReal_cos, ← Complex.ofReal_sin]
  rw [Real.cos_neg, Real.sin_neg, Real.cos_add, Real.sin_add]
  rw [Real.cos_pi, Real.sin_pi, Real.cos_pi_div_two, Real.sin_pi_div_two]
  push_cast
  ring

theorem posBins_4_1000 : posBins 4 1000 = [1] := by
  rw [posBins_eq 4 1000 (by norm_num)]
  rfl

/-! ### Claims -/

/-- C7: the window generator `hamming` satisfies: `M < 1` yields the empty
sequence (not an error); `M = 1` yields `[1.0]`; for symmetric windows
`w[n] = 0.54 - 0.46*cos(2*pi*n/(M-1))` over `n ∈ [0, M)`; and for `sym`
false with even `M` the result is the symmetric length-`(M+1)` window with
its last sample dropped. -/
theorem hamming_window_identity (M : ℤ) (sym : Bool) :
    (M < 1 → hamming M sym = []) ∧
    (M = 1 → hamming M sym = [1]) ∧
    (2 ≤ M → hamming M true = (List.range M.toNat).map (fun n : ℕ =>
      0.54 - 0.46 * Real.cos (2 * Real.pi * (n : ℝ) / ((M : ℝ) - 1)))) ∧
    (2 ≤ M → M % 2 = 0 → hamming M false = (hamming (M + 1) true).dropLast) :=
  ⟨hamming_lt_one M sym, fun h => h ▸ hamming_one sym, fun h => hamming_sym M h,
    fun h hev => hamming_periodic M h hev⟩

/-- C10: `result_size` is the sum, over the two shapes `result_shape`
reports, of the product of each shape's dimensions, times 8 bytes; it is a
pure function of `nfft` and the input shape (it never references the
coherence computation). -/
theorem result_size_formula (nfft s0 s1 s2 s3 : ℕ) :
    result_size nfft [s0, s1, s2, s3]
      = ((nfft / 2 + 1) * s2 * s2 * s1 * s3 + (nfft / 2 + 1)) * 8 := by
  simp [result_size, result_shape]
  ring

/-- C2: with a positive window size, `coherence` raises the
insufficient-data error, reporting the sample count `nt` and the requested
`nfft`, exactly when `nwin = floor(nt / nfft) < 1`; the error is decided
before any windowing or FFT (it does not depend on the data, which the
statement quantifies over), and inputs with at least `nfft` samples
succeed. -/
theorem coherence_insufficient_data (d : List ℕ → ℝ) (nt ns nn nm : ℕ) (sr : ℚ)
    (nfft : ℤ) (imag : Bool) (hpos : 0 < nfft) :
    (Int.fdiv nt nfft < 1 →
      coherence ⟨[nt, ns, nn, nm], d⟩ sr nfft imag
        = .error (.insufficientData nt nfft)) ∧
    (nfft ≤ (nt : ℤ) →
      coherence ⟨[nt, ns, nn, nm], d⟩ sr nfft imag
        = .ok (okResult d nt ns nn nm sr nfft imag)) := by
  constructor
  · intro hlt
    exact coherence_insufficient d nt ns nn nm sr nfft imag hpos
      ((fdiv_lt_one_iff nt nfft hpos).mp hlt)
  · intro hle
    exact coherence_ok d nt ns nn nm sr nfft imag hpos hle

theorem coherence_insufficient_data_witness :
    coherence ⟨[2, 1, 1, 1], fun _ => 0⟩ 1000 4 false
        = .error (.insufficientData 2 4) ∧
      coherence ⟨[4, 1, 1, 1], fun _ => 0⟩ 1000 4 false
        = .ok (okResult (fun _ => 0) 4 1 1 1 1000 4 false) :=
  ⟨(coherence_insufficient_data (fun _ => 0) 2 1 1 1 1000 4 false (by norm_num)).1
      (by decide),
    (coherence_insufficient_data (fun _ => 0) 4 1 1 1 1000 4 false (by norm_num)).2
      (by norm_num)⟩

/-- C8 (amended): an input that does not present exactly four axes raises
the shape error, eagerly and independently of the data; but a non-positive
`nfft` does not reach any shape check: `nfft = 0` dies in the division
`nwin = nt / nfft` and `nfft < 0` makes `nwin < 1`, which raises the
insufficient-data error instead. -/
theorem coherence_validation_errors (a : NDArray) (sr : ℚ) (nfft : ℤ) (imag : Bool) :
    (a.shape.length ≠ 4 → coherence a sr nfft imag = .error .shapeMismatch) ∧
    (∀ nt ns nn nm d, a = ⟨[nt, ns, nn, nm], d⟩ → nfft = 0 →
      coherence a sr nfft imag = .error .zeroDivision) ∧
    (∀ nt ns nn nm d, a = ⟨[nt, ns, nn, nm], d⟩ → nfft < 0 →
      coherence a sr nfft imag = .error (.insufficientData nt nfft)) := by
  refine ⟨coherence_shape_error a sr nfft imag, ?_, ?_⟩
  · rintro nt ns nn nm d rfl rfl
    exact coherence_zero_nfft d nt ns nn nm sr imag
  · rintro nt ns nn nm d rfl hneg
    simp only [coherence]
    rw [if_neg (by omega), if_pos (fdiv_neg_lt_one nt nfft hneg)]

/-- C8, counterexample to the claim as stated: `nfft = -4` is non-positive,
yet on a well-formed four-axis input the computation raises the
insufficient-data error, not the shape error. -/
theorem coherence_negative_nfft_cex :
    coherence ⟨[8, 1, 1, 1], fun _ => 0⟩ 1000 (-4) false
        = .error (.insufficientData 8 (-4)) ∧
      CohError.insufficientData 8 (-4) ≠ CohError.shapeMismatch := by
  constructor
  · simp only [coherence]
    rw [if_neg (by norm_num), if_pos (by decide)]
  · decide

/-- C3 (amended): `result_shape` reports a frequency length of
`nfft/2 + 1`, while the array `coherence` actually returns carries
`(nfft - 1)/2` frequency bins (the count of strictly positive FFT
frequencies); the reported count strictly exceeds the actual one for every
`nfft`, and only the four trailing dimensions agree. -/
theorem result_shape_vs_actual (nfft : ℕ) (sr : ℚ) (nt ns nn nm : ℕ)
    (d : List ℕ → ℝ) (imag : Bool) (r : CohResult) (hsr : 0 < sr)
    (h : coherence ⟨[nt, ns, nn, nm], d⟩ sr (nfft : ℤ) imag = .ok r) :
    result_shape nfft [nt, ns, nn, nm]
        = [[nfft / 2 + 1, nn, nn, ns, nm], [nfft / 2 + 1]] ∧
    r.shape = [(nfft - 1) / 2, nn, nn, ns, nm] ∧
    r.freqs.length = (nfft - 1) / 2 ∧
    (nfft - 1) / 2 < nfft / 2 + 1 := by
  obtain ⟨hr, hpos, hle⟩ := coherence_ok_inv d nt ns nn nm sr nfft imag r h
  subst hr
  have htn : ((nfft : ℤ)).toNat = nfft := Int.toNat_natCast nfft
  refine ⟨by simp [result_shape], ?_, ?_, by omega⟩
  · show [(posBins ((nfft : ℤ)).toNat sr).length, nn, nn, ns, nm] = _
    rw [htn, posBins_length nfft sr hsr]
  · show (cohFreqs ((nfft : ℤ)).toNat sr).length = _
    rw [htn]
    unfold cohFreqs
    rw [List.length_map, posBins_length nfft sr hsr]

theorem result_shape_vs_actual_witness :
    result_shape 4 [4, 1, 2, 1] = [[3, 2, 2, 1, 1], [3]] ∧
    (okResult (fun _ => 0) 4 1 2 1 1000 4 false).shape = [1, 2, 2, 1, 1] ∧
    (okResult (fun _ => 0) 4 1 2 1 1000 4 false).freqs.length = 1 ∧
    1 < 3 :=
  result_shape_vs_actual 4 1000 4 1 2 1 (fun _ => 0) false
    (okResult (fun _ => 0) 4 1 2 1 1000 4 false) (by norm_num)
    (coherence_ok (fun _ => 0) 4 1 2 1 1000 4 false (by norm_num) (by norm_num))

/-- C3, counterexample to the claim as stated: at `nfft = 4` the shape
query reports 3 frequency bins but the returned array has 1. -/
theorem result_shape_freq_cex :
    ∃ r, coherence ⟨[4, 1, 2, 1], fun _ => 0⟩ 1000 4 false = .ok r ∧
      r.shape ≠ [4 / 2 + 1, 2, 2, 1, 1] ∧
      r.freqs.length ≠ 4 / 2 + 1 ∧
      result_shape 4 [4, 1, 2, 1] = [[4 / 2 + 1, 2, 2, 1, 1], [4 / 2 + 1]] := by
  refine ⟨okResult (fun _ => 0) 4 1 2 1 1000 4 false,
    coherence_ok (fun _ => 0) 4 1 2 1 1000 4 false (by norm_num) (by norm_num),
    ?_, ?_, by rfl⟩
  · show [(posBins ((4 : ℤ)).toNat 1000).length, 2, 2, 1, 1] ≠ _
    rw [show ((4 : ℤ)).toNat = 4 from rfl, posBins_4_1000]
    decide
  · show (cohFreqs ((4 : ℤ)).toNat 1000).length ≠ _
    rw [show ((4 : ℤ)).toNat = 4 from rfl]
    unfold cohFreqs
    rw [posBins_4_1000]
    decide

/-- Spike data used by concrete witnesses: value 1 at every sample index
divisible by 4, else 0; ignores the other axes. -/
noncomputable def deltaData : List ℕ → ℝ :=
  fun l => if l.headD 0 % 4 = 0 then 1 else 0

/-- Every windowed 4-point segment spectrum of `deltaData` is the constant
`0.08` (only the first sample of each segment is nonzero, and it carries
window weight `0.54 - 0.46*cos 0 = 0.08`). -/
theorem segSpec_deltaData (i s m w k : ℕ) :
    segSpec deltaData 4 i s m w k = ((0.08 : ℝ) : ℂ) := by
  unfold segSpec
  rw [Finset.sum_range_succ, Finset.sum_range_succ, Finset.sum_range_succ,
    Finset.sum_range_succ, Finset.sum_range_zero]
  have h0 : deltaData [w * 4 + 0, s, i, m] = 1 := by
    unfold deltaData
    rw [List.headD_cons, if_pos (by omega)]
  have h1 : deltaData [w * 4 + 1, s, i, m] = 0 := by
    unfold deltaData
    rw [List.headD_cons, if_neg (by omega)]
  have h2 : deltaData [w * 4 + 2, s, i, m] = 0 := by
    unfold deltaData
    rw [List.headD_cons, if_neg (by omega)]
  have h3 : deltaData [w * 4 + 3, s, i, m] = 0 := by
    unfold deltaData
    rw [List.headD_cons, if_neg (by omega)]
  rw [h0, h1, h2, h3]
  rw [hamVal_4 0, fftKernel_t_zero]
  norm_num

/-- C5: the coherence array returned by a successful run of `coherence` is
symmetric in the node pair, for both values of the `imag` flag: the
numerators `|G_ij|^2` and `|G_ji|^2` agree segmentwise and the denominator
`dG_i * dG_j` commutes. -/
theorem coherence_node_symmetric (d : List ℕ → ℝ) (nt ns nn nm : ℕ) (sr : ℚ)
    (nfft : ℤ) (imag : Bool) (r : CohResult)
    (h : coherence ⟨[nt, ns, nn, nm], d⟩ sr nfft imag = .ok r)
    (f i j s m : ℕ) :
    r.entry f i j s m = r.entry f j i s m := by
  obtain ⟨hr, -, -⟩ := coherence_ok_inv d nt ns nn nm sr nfft imag r h
  subst hr
  exact cohMean_symm d nfft.toNat (Int.fdiv nt nfft).toNat imag i j s m _

theorem coherence_node_symmetric_witness :
    (okResult deltaData 4 1 2 1 1000 4 true).entry 0 0 1 0 0
      = (okResult deltaData 4 1 2 1 1000 4 true).entry 0 1 0 0 0 :=
  coherence_node_symmetric deltaData 4 1 2 1 1000 4 true
    (okResult deltaData 4 1 2 1 1000 4 true)
    (coherence_ok deltaData 4 1 2 1 1000 4 true (by norm_num) (by norm_num))
    0 0 1 0 0

/-- Every segment spectrum of the all-zero series vanishes. -/
theorem segSpec_zero (nfft i s m w k : ℕ) :
    segSpec (fun _ => (0 : ℝ)) nfft i s m w k = 0 := by
  unfold segSpec
  simp

/-- C6 (amended): with `imag = false` and every per-segment autopower of
the two nodes involved nonzero (no windowed segment spectrum of node `i` or
`j` vanishes), every entry of the coherence array a successful run returns
is a real number in `[0, 1]`: each per-segment normalized cross-power is
`N_w / N_w` with `N_w ≠ 0`, so their mean lies in the unit interval.
Without that proviso the program divides by a vanished autopower and the
numpy entry is NaN (`inf`/NaN throughout for `imag = true`, whose
denominators are identically zero) — see the counterexample. -/
theorem coherence_entries_bounded (d : List ℕ → ℝ) (nt ns nn nm : ℕ) (sr : ℚ)
    (nfft : ℤ) (r : CohResult)
    (h : coherence ⟨[nt, ns, nn, nm], d⟩ sr nfft false = .ok r) (i j s m : ℕ)
    (_hFi : ∀ w k, w < (Int.fdiv nt nfft).toNat → segSpec d nfft.toNat i s m w k ≠ 0)
    (_hFj : ∀ w k, w < (Int.fdiv nt nfft).toNat → segSpec d nfft.toNat j s m w k ≠ 0) :
    ∀ f, (r.entry f i j s m).im = 0 ∧
      0 ≤ (r.entry f i j s m).re ∧ (r.entry f i j s m).re ≤ 1 := by
  intro f
  obtain ⟨hr, -, -⟩ := coherence_ok_inv d nt ns nn nm sr nfft false r h
  subst hr
  exact cohMean_false_bounds d nfft.toNat (Int.fdiv nt nfft).toNat i j s m _

theorem coherence_entries_bounded_witness :
    ((okResult deltaData 4 1 2 1 1000 4 false).entry 0 0 1 0 0).im = 0 ∧
    0 ≤ ((okResult deltaData 4 1 2 1 1000 4 false).entry 0 0 1 0 0).re ∧
    ((okResult deltaData 4 1 2 1 1000 4 false).entry 0 0 1 0 0).re ≤ 1 :=
  coherence_entries_bounded deltaData 4 1 2 1 1000 4
    (okResult deltaData 4 1 2 1 1000 4 false)
    (coherence_ok deltaData 4 1 2 1 1000 4 false (by norm_num) (by norm_num))
    0 1 0 0
    (fun w k _ => by
      rw [show (Int.toNat (4 : ℤ)) = 4 from rfl, segSpec_deltaData]; norm_num)
    (fun w k _ => by
      rw [show (Int.toNat (4 : ℤ)) = 4 from rfl, segSpec_deltaData]; norm_num)
    0

/-- C6, counterexample to the claim as stated: the all-zero series is a
valid 4-D input on which `coherence` succeeds, yet at its retained
frequency bin (FFT bin 1) both the numerator `|G_00|^2` and the denominator
`dG_0 * dG_0` of the single per-segment ratio are 0, so the program
computes `0/0` — NaN in numpy, which is not a number in `[0, 1]`.  (Total
division renders the entry 0 in this embedding; the bound survives here
only by that `0/0 = 0` convention.) -/
theorem coherence_bounded_zero_cex :
    ∃ r, coherence ⟨[4, 1, 1, 1], fun _ => 0⟩ 1000 4 false = .ok r ∧
      (posBins 4 1000).getD 0 0 = 1 ∧
      (Complex.abs (crossSpec (fun _ => 0) 4 false 0 0 0 0 0 1)) ^ 2 = 0 ∧
      crossSpec (fun _ => 0) 4 false 0 0 0 0 0 1
        * crossSpec (fun _ => 0) 4 false 0 0 0 0 0 1 = 0 ∧
      r.entry 0 0 0 0 0 = 0 := by
  refine ⟨okResult (fun _ => 0) 4 1 1 1 1000 4 false,
    coherence_ok (fun _ => 0) 4 1 1 1 1000 4 false (by norm_num) (by norm_num),
    by rw [posBins_4_1000]; rfl, ?_, ?_, ?_⟩
  · simp [crossSpec, segSpec_zero]
  · simp [crossSpec, segSpec_zero]
  · show cohOut (fun _ => 0) ((4 : ℤ)).toNat ((Int.fdiv 4 4)).toNat false 1000 0 0 0 0 0 = 0
    unfold cohOut
    rw [cohMean_false_ofReal]
    simp [segSpec_zero]

/-- C4: whenever every per-segment, per-frequency autopower is nonzero
(equivalently, no windowed segment spectrum vanishes), EVERY entry of the
array `coherence` returns — off-diagonal as well as diagonal — equals
exactly 1: segmentwise `|F_i conj(F_j)|^2 = |F_i|^2 |F_j|^2`, so each
per-segment ratio is 1 before the mean over segments is taken. -/
theorem coherence_all_entries_one (d : List ℕ → ℝ) (nt ns nn nm : ℕ) (sr : ℚ)
    (nfft : ℤ) (r : CohResult)
    (h : coherence ⟨[nt, ns, nn, nm], d⟩ sr nfft false = .ok r)
    (hF : ∀ a s m w k, w < (Int.fdiv nt nfft).toNat →
      segSpec d nfft.toNat a s m w k ≠ 0) :
    ∀ f i j s m, r.entry f i j s m = 1 := by
  intro f i j s m
  obtain ⟨hr, hpos, hle⟩ := coherence_ok_inv d nt ns nn nm sr nfft false r h
  subst hr
  have hwin : 0 < (Int.fdiv nt nfft).toNat := by
    have h1 : ¬ Int.fdiv nt nfft < 1 := by
      rw [fdiv_lt_one_iff nt nfft hpos]
      omega
    omega
  exact cohMean_one d nfft.toNat (Int.fdiv nt nfft).toNat i j s m _ hwin
    (fun w hw => hF i s m w _ hw) (fun w hw => hF j s m w _ hw)

theorem coherence_all_entries_one_witness :
    (okResult deltaData 4 1 2 1 1000 4 false).entry 0 0 1 0 0 = 1 :=
  coherence_all_entries_one deltaData 4 1 2 1 1000 4
    (okResult deltaData 4 1 2 1 1000 4 false)
    (coherence_ok deltaData 4 1 2 1 1000 4 false (by norm_num) (by norm_num))
    (fun a s m w k _ => by
      rw [show (Int.toNat (4 : ℤ)) = 4 from rfl, segSpec_deltaData]; norm_num)
    0 0 1 0 0

/-- C1 (amended): the diagonal entries of a successful run equal 1 provided
the corresponding per-segment autopowers are nonzero — that is, provided no
windowed segment spectrum of node `i` vanishes.  (Without that proviso the
diagonal is `0/0`: NaN in numpy, 0 in this embedding — see the
counterexample.) -/
theorem coherence_self_one (d : List ℕ → ℝ) (nt ns nn nm : ℕ) (sr : ℚ)
    (nfft : ℤ) (r : CohResult)
    (h : coherence ⟨[nt, ns, nn, nm], d⟩ sr nfft false = .ok r) (i s m : ℕ)
    (hF : ∀ w k, w < (Int.fdiv nt nfft).toNat → segSpec d nfft.toNat i s m w k ≠ 0) :
    ∀ f, r.entry f i i s m = 1 := by
  intro f
  obtain ⟨hr, hpos, hle⟩ := coherence_ok_inv d nt ns nn nm sr nfft false r h
  subst hr
  have hwin : 0 < (Int.fdiv nt nfft).toNat := by
    have h1 : ¬ Int.fdiv nt nfft < 1 := by
      rw [fdiv_lt_one_iff nt nfft hpos]
      omega
    omega
  exact cohMean_one d nfft.toNat (Int.fdiv nt nfft).toNat i i s m _ hwin
    (fun w hw => hF w _ hw) (fun w hw => hF w _ hw)

theorem coherence_self_one_witness :
    (okResult deltaData 4 1 1 1 1000 4 false).entry 0 0 0 0 0 = 1 :=
  coherence_self_one deltaData 4 1 1 1 1000 4
    (okResult deltaData 4 1 1 1 1000 4 false)
    (coherence_ok deltaData 4 1 1 1 1000 4 false (by norm_num) (by norm_num))
    0 0 0
    (fun w k _ => by
      rw [show (Int.toNat (4 : ℤ)) = 4 from rfl, segSpec_deltaData]; norm_num)
    0

/-- C1, counterexample to the claim as stated: the all-zero series is a
valid 4-D input with `nt = nfft = 4` samples, `coherence` succeeds on it,
yet the diagonal entry at the retained frequency bin is `0/0` — 0 in this
embedding, NaN in numpy — and in particular not 1. -/
theorem coherence_self_zero_cex :
    ∃ r, coherence ⟨[4, 1, 1, 1], fun _ => 0⟩ 1000 4 false = .ok r ∧
      r.entry 0 0 0 0 0 ≠ 1 := by
  refine ⟨okResult (fun _ => 0) 4 1 1 1 1000 4 false,
    coherence_ok (fun _ => 0) 4 1 1 1 1000 4 false (by norm_num) (by norm_num), ?_⟩
  show cohOut (fun _ => 0) ((4 : ℤ)).toNat ((Int.fdiv 4 4)).toNat false 1000 0 0 0 0 0 ≠ 1
  unfold cohOut
  rw [cohMean_false_ofReal]
  simp [segSpec_zero]

/-! ### The reference oracle (`coherence_mlab`) and its divergence from the
vectorized estimator -/

/-- Modelled from the spec: matplotlib's `detrend_linear` (the `detrend`
argument `coherence_mlab` passes to `mlab.cohere`; the library itself is not
part of this repository).  Ordinary least-squares removal of the best-fit
line over one segment of length `n`. -/
noncomputable def detrend_linear (x : ℕ → ℝ) (n : ℕ) (t : ℕ) : ℝ :=
  x t - ((((n : ℝ) * (∑ u ∈ Finset.range n, (u : ℝ) * x u)
        - (∑ u ∈ Finset.range n, (u : ℝ)) * (∑ u ∈ Finset.range n, x u))
      / ((n : ℝ) * (∑ u ∈ Finset.range n, ((u : ℝ)) ^ 2)
        - (∑ u ∈ Finset.range n, (u : ℝ)) ^ 2)) * t
    + ((∑ u ∈ Finset.range n, x u)
        - (((n : ℝ) * (∑ u ∈ Finset.range n, (u : ℝ) * x u)
            - (∑ u ∈ Finset.range n, (u : ℝ)) * (∑ u ∈ Finset.range n, x u))
          / ((n : ℝ) * (∑ u ∈ Finset.range n, ((u : ℝ)) ^ 2)
            - (∑ u ∈ Finset.range n, (u : ℝ)) ^ 2))
          * (∑ u ∈ Finset.range n, (u : ℝ))) / n)

/-- A segment orthogonal to constants and to the ramp is fixed by the
detrend step. -/
theorem detrend_fix (x : ℕ → ℝ) (n t : ℕ)
    (h1 : ∑ u ∈ Finset.range n, x u = 0)
    (h2 : ∑ u ∈ Finset.range n, (u : ℝ) * x u = 0) :
    detrend_linear x n t = x t := by
  unfold detrend_linear
  rw [h1, h2]
  simp

/-- Modelled from the spec: the per-segment spectrum inside `mlab.cohere`
with `window=window_none` and `noverlap=0` — each detrended length-`nfft`
block transformed by the DFT. -/
noncomputable def mlabSpec (z : ℕ → ℝ) (nfft w k : ℕ) : ℂ :=
  ∑ t ∈ Finset.range nfft,
    ((detrend_linear (fun u => z (w * nfft + u)) nfft t : ℝ) : ℂ) * fftKernel nfft t k

/-- Modelled from the spec: `mlab.cohere(x, y, NFFT, Fs, detrend_linear,
window_none)` — the Welch magnitude-squared coherence
`|Pxy|^2 / (Pxx * Pyy)` in which the cross-spectra are averaged over
segments BEFORE normalization.  The constant scale factors matplotlib
applies to `Pxy`, `Pxx`, `Pyy` (window normalization, `Fs` scaling,
one-sided doubling) are identical in numerator and denominator and cancel
in the ratio, so they are omitted; the per-bin value is unchanged. -/
noncomputable def cohere (x y : ℕ → ℝ) (nfft nseg k : ℕ) : ℝ :=
  (Complex.abs (∑ w ∈ Finset.range nseg,
      (starRingEnd ℂ) (mlabSpec x nfft w k) * mlabSpec y nfft w k)) ^ 2
    / ((∑ w ∈ Finset.range nseg, Complex.normSq (mlabSpec x nfft w k))
      * (∑ w ∈ Finset.range nseg, Complex.normSq (mlabSpec y nfft w k)))

/-- `coherence_mlab(data, sample_rate, nfft)` from the source: each node's
full series is centred by its time mean, then `mlab.cohere` runs per node
pair; entry `(k, n1, n2, var, mode)` of the output `coh`.  (The source
reassigns `data` inside its loop over modes and variables, so on inputs
with more than one `(state_variable, mode)` slice every iteration after the
first fails; the value modelled here is the one the first slice — hence any
`ns = nm = 1` input — produces.)  Bin `k` of `mlab.cohere`'s one-sided
output is the coherence at FFT bin `k` (frequency `k*Fs/nfft`). -/
noncomputable def coherence_mlab (data : List ℕ → ℝ) (nt nfft : ℕ)
    (k n1 n2 var mode : ℕ) : ℝ :=
  cohere
    (fun t => data [t, var, n1, mode]
      - (∑ u ∈ Finset.range nt, data [u, var, n1, mode]) / (nt : ℝ))
    (fun t => data [t, var, n2, mode]
      - (∑ u ∈ Finset.range nt, data [u, var, n2, mode]) / (nt : ℝ))
    nfft (nt / nfft) k

/-- The alternating pattern `1, -1, -1, 1` with period 4. -/
noncomputable def vSig : ℕ → ℝ :=
  fun t => if t % 4 = 1 ∨ t % 4 = 2 then -1 else 1

/-- The divergence input: 8 samples, 1 state variable, 2 nodes, 1 mode.
Node 0 carries `vSig`; node 1 copies it on the first segment and negates it
on the second. -/
noncomputable def c9data : List ℕ → ℝ := fun l =>
  match l with
  | [t, _, n, _] => if n = 0 then vSig t else if t < 4 then vSig t else -vSig t
  | _ => 0

theorem hamVal_4_0 : hamVal 4 0 = 0.08 := by
  rw [hamVal_4]
  rfl

theorem hamVal_4_1 : hamVal 4 1 = 0.77 := by
  rw [hamVal_4]
  rfl

theorem hamVal_4_2 : hamVal 4 2 = 0.77 := by
  rw [hamVal_4]
  rfl

theorem hamVal_4_3 : hamVal 4 3 = 0.08 := by
  rw [hamVal_4]
  rfl

/-- On the divergence input every windowed segment spectrum of either node
at bin 1 is nonzero (its real part is `±0.85`). -/
theorem segSpec_c9_ne (n w : ℕ) (hn : n < 2) (hw : w < 2) :
    segSpec c9data 4 n 0 0 w 1 ≠ 0 := by
  have hre : (segSpec c9data 4 n 0 0 w 1).re ≠ 0 := by
    unfold segSpec
    rw [Finset.sum_range_succ, Finset.sum_range_succ, Finset.sum_range_succ,
      Finset.sum_range_succ, Finset.sum_range_zero]
    rw [hamVal_4_0, hamVal_4_1, hamVal_4_2, hamVal_4_3]
    rw [fftKernel_t_zero, fftKernel_4_1, fftKernel_4_2, fftKernel_4_3]
    interval_cases n <;> interval_cases w <;>
      simp [c9data, vSig, Complex.add_re, Complex.mul_re, Complex.I_re, Complex.I_im] <;>
      norm_num
  exact fun h => hre (by rw [h]; simp)

theorem c9sum (n : ℕ) (hn : n < 2) :
    ∑ u ∈ Finset.range 8, c9data [u, 0, n, 0] = 0 := by
  rw [Finset.sum_range_succ, Finset.sum_range_succ, Finset.sum_range_succ,
    Finset.sum_range_succ, Finset.sum_range_succ, Finset.sum_range_succ,
    Finset.sum_range_succ, Finset.sum_range_succ, Finset.sum_range_zero]
  interval_cases n <;> simp [c9data, vSig]

theorem center_c9 (n : ℕ) (hn : n < 2) :
    (fun t => c9data [t, 0, n, 0]
        - (∑ u ∈ Finset.range 8, c9data [u, 0, n, 0]) / ((8 : ℕ) : ℝ))
      = fun t => c9data [t, 0, n, 0] := by
  funext t
  rw [c9sum n hn]
  norm_num

/-- The oracle's segment spectra at bin 1 on the divergence input: the
detrend step fixes each segment (it is orthogonal to constants and ramps),
and the spectra are `2 + 2i` except for node 1's second segment, which is
`-(2 + 2i)`. -/
theorem mlabSpec_c9 (n w : ℕ) (hn : n < 2) (hw : w < 2) :
    mlabSpec (fun t => c9data [t, 0, n, 0]
        - (∑ u ∈ Finset.range 8, c9data [u, 0, n, 0]) / ((8 : ℕ) : ℝ)) 4 w 1
      = (if n = 1 ∧ w = 1 then -(2 + 2 * Complex.I) else 2 + 2 * Complex.I) := by
  rw [center_c9 n hn]
  unfold mlabSpec
  rw [Finset.sum_range_succ, Finset.sum_range_succ, Finset.sum_range_succ,
    Finset.sum_range_succ, Finset.sum_range_zero]
  rw [fftKernel_t_zero, fftKernel_4_1, fftKernel_4_2, fftKernel_4_3]
  have hfix : ∀ t, detrend_linear (fun u => c9data [w * 4 + u, 0, n, 0]) 4 t
      = c9data [w * 4 + t, 0, n, 0] := by
    intro t
    refine detrend_fix _ 4 t ?_ ?_ <;>
      · rw [Finset.sum_range_succ, Finset.sum_range_succ, Finset.sum_range_succ,
          Finset.sum_range_succ, Finset.sum_range_zero]
        interval_cases n <;> interval_cases w <;>
          simp [c9data, vSig] <;> norm_num
  rw [hfix 0, hfix 1, hfix 2, hfix 3]
  interval_cases n <;> interval_cases w <;>
    simp [c9data, vSig] <;> ring

/-- C9: the naive reference estimator and the vectorized estimator are NOT
numerically equivalent.  On an 8-sample, 2-node series (`nfft = 4`) whose
second node negates its second segment, the vectorized `coherence` returns
exactly 1 at its retained frequency bin (FFT bin 1, 250 Hz) while the
`mlab.cohere`-based reference returns 0 at the same bin: the vectorized
code normalizes each segment's cross-power by that segment's own autopowers
before averaging, so the two cross-spectra can never cancel. -/
theorem coherence_vs_mlab_diverge :
    ∃ r, coherence ⟨[8, 1, 2, 1], c9data⟩ 1000 4 false = .ok r ∧
      r.entry 0 0 1 0 0 = 1 ∧
      coherence_mlab c9data 8 4 1 0 1 0 0 = 0 ∧
      (1e-6 : ℝ) < Complex.abs (r.entry 0 0 1 0 0
        - ((coherence_mlab c9data 8 4 1 0 1 0 0 : ℝ) : ℂ)) := by
  have hmlab : coherence_mlab c9data 8 4 1 0 1 0 0 = 0 := by
    unfold coherence_mlab cohere
    rw [show (8 : ℕ) / 4 = 2 from rfl]
    have hnum : (∑ w ∈ Finset.range 2,
        (starRingEnd ℂ) (mlabSpec (fun t => c9data [t, 0, 0, 0]
            - (∑ u ∈ Finset.range 8, c9data [u, 0, 0, 0]) / ((8 : ℕ) : ℝ)) 4 w 1)
          * mlabSpec (fun t => c9data [t, 0, 1, 0]
            - (∑ u ∈ Finset.range 8, c9data [u, 0, 1, 0]) / ((8 : ℕ) : ℝ)) 4 w 1) = 0 := by
      rw [Finset.sum_range_succ, Finset.sum_range_succ, Finset.sum_range_zero]
      rw [mlabSpec_c9 0 0 (by norm_num) (by norm_num),
        mlabSpec_c9 0 1 (by norm_num) (by norm_num),
        mlabSpec_c9 1 0 (by norm_num) (by norm_num),
        mlabSpec_c9 1 1 (by norm_num) (by norm_num)]
      rw [if_neg (by norm_num), if_neg (by norm_num), if_neg (by norm_num),
        if_pos (by norm_num)]
      ring
    rw [hnum]
    simp
  have hentry : (okResult c9data 8 1 2 1 1000 4 false).entry 0 0 1 0 0 = 1 := by
    show cohOut c9data (Int.toNat 4) (Int.fdiv 8 4).toNat false 1000 0 0 1 0 0 = 1
    rw [show Int.toNat (4 : ℤ) = 4 from rfl, show (Int.fdiv 8 4).toNat = 2 from rfl]
    unfold cohOut
    rw [posBins_4_1000]
    exact cohMean_one c9data 4 2 0 1 0 0 1 (by norm_num)
      (fun w hw => segSpec_c9_ne 0 w (by norm_num) hw)
      (fun w hw => segSpec_c9_ne 1 w (by norm_num) hw)
  refine ⟨okResult c9data 8 1 2 1 1000 4 false,
    coherence_ok c9data 8 1 2 1 1000 4 false (by norm_num) (by norm_num),
    hentry, hmlab, ?_⟩
  rw [hentry, hmlab]
  simp
  norm_num

end NodeCoherence
